import Mathlib

/-!
Verification development for the multi-collection retrieval-augmented agent
(`gosu-rag-context`).  The definitions below are a shallow embedding of the
TypeScript sources:

* `src/vectorstores/chroma/chromaAdapter.ts` (multi-collection retrieval,
  split-node reconstruction, semantic search merging),
* `src/memory/ConversationManager.ts` (duplicate-query cache, history
  retention, rolling summarization) together with `HistorySummarizer.ts`,
* `src/runtime/evaluator.ts` (the per-step tool loop `runStep` and the
  outcome `evaluate` function) and `planning/planner.ts` (`planFromQuery`),
* `src/main.ts` (cache short-circuit control flow).

JavaScript numbers are modelled by `ℚ` (scores, distances, similarities) and
by `Int`/`Nat` (line numbers, sizes); asynchronous collaborator calls (the
Chroma backend, the LLM provider, the embedding provider) are modelled by
explicit inputs/oracles; a thrown exception is modelled by `Except.error`.
JavaScript array sort (stable comparison sort) is modelled by
`List.insertionSort` over the comparator key.
-/

/-- Metadata attached to one stored chunk, mirroring `ChunkMetadata` in
`src/vectorstores/VectorStoreAdapter.ts`.  The optional TS fields `package`
and `module` are named `packageName` and `moduleName` here. -/
structure ChunkMetadata where
  absolutePath : String
  relativePath : String
  moduleName : Option String
  packageName : Option String
  className : Option String
  methodName : Option String
  chunkType : String
  language : String
  lineStart : Int
  lineEnd : Int
  contentHash : String
deriving DecidableEq, Repr

/-- Search result from the vector store, mirroring `SearchHit` in
`src/vectorstores/VectorStoreAdapter.ts`.  Optional number fields use
`Option ℚ`. -/
structure SearchHit where
  chunkId : String
  text : String
  score : Option ℚ
  distance : Option ℚ
  metadata : ChunkMetadata
  collectionName : Option String
deriving DecidableEq, Repr

/-- Grouping key of `ChromaAdapter.reconstructSplitNodes`:
the template-literal key
`relativePath + bar + (className or empty) + bar + (methodName or empty)`,
where a missing or empty optional field renders as the empty string
(JS `x || ''`). -/
def hitKey (h : SearchHit) : String :=
  h.metadata.relativePath ++ "|" ++ h.metadata.className.getD "" ++ "|" ++
    h.metadata.methodName.getD ""

/-- One step of the JS `Map` grouping used by `reconstructSplitNodes`:
append the hit to the group with its key if present (`groups.get(key).push`),
otherwise append a fresh group at the end (JS `Map` preserves insertion
order). -/
def insertHit (h : SearchHit) :
    List (String × List SearchHit) → List (String × List SearchHit)
  | [] => [(hitKey h, [h])]
  | (k, g) :: rest =>
      if k = hitKey h then (k, g ++ [h]) :: rest
      else (k, g) :: insertHit h rest

/-- Grouping pass of `reconstructSplitNodes`: fold the hits into an
insertion-ordered association list, as the JS `Map` loop does. -/
def groupByKey (hits : List SearchHit) : List (String × List SearchHit) :=
  hits.foldl (fun acc h => insertHit h acc) []

/-- Ascending sort by `metadata.lineStart`, modelling
`chunks.sort((a, b) => a.metadata.lineStart - b.metadata.lineStart)`. -/
def sortByLineStart (chunks : List SearchHit) : List SearchHit :=
  chunks.insertionSort (fun a b => a.metadata.lineStart ≤ b.metadata.lineStart)

/-- Minimum of the `lineStart` fields of a chunk list
(`Math.min(...chunks.map(c => c.metadata.lineStart))`); `0` on the empty
list, which the caller never passes. -/
def minLineStart : List SearchHit → Int
  | [] => 0
  | c :: rest => rest.foldl (fun m x => min m x.metadata.lineStart) c.metadata.lineStart

/-- Maximum of the `lineEnd` fields of a chunk list
(`Math.max(...chunks.map(c => c.metadata.lineEnd))`); `0` on the empty
list, which the caller never passes. -/
def maxLineEnd : List SearchHit → Int
  | [] => 0
  | c :: rest => rest.foldl (fun m x => max m x.metadata.lineEnd) c.metadata.lineEnd

/-- Placeholder metadata, used only for the unreachable empty-group branch of
`mergeChunks` (the source indexes `chunks[0]` there, guarded by
`chunks.length > 1`). -/
def emptyMeta : ChunkMetadata :=
  { absolutePath := "", relativePath := "", moduleName := none,
    packageName := none, className := none, methodName := none,
    chunkType := "", language := "", lineStart := 0, lineEnd := 0,
    contentHash := "" }

/-- Merge a group of more than one chunk into a single hit, mirroring the
`chunks.length > 1` branch of `reconstructSplitNodes`: sort by `lineStart`,
join ids with a plus sign and texts with a newline, copy score/distance and
metadata from the first sorted chunk, span the line range, and keep the first
chunk's collection name when it is a truthy (non-empty) string. -/
def mergeChunks (chunks : List SearchHit) : SearchHit :=
  match sortByLineStart chunks with
  | [] =>
      { chunkId := "", text := "", score := none, distance := none,
        metadata := emptyMeta, collectionName := none }
  | first :: rest =>
      { chunkId := String.intercalate "+" ((first :: rest).map SearchHit.chunkId)
      , text := String.intercalate "\n" ((first :: rest).map SearchHit.text)
      , score := first.score
      , distance := first.distance
      , metadata :=
          { first.metadata with
              lineStart := minLineStart (first :: rest)
            , lineEnd := maxLineEnd (first :: rest) }
      , collectionName :=
          match first.collectionName with
          | some s => if s = "" then none else some s
          | none => none }

/-- Per-group output of `reconstructSplitNodes`: a singleton group is pushed
unchanged, a larger group is merged, and an empty group (never produced by
the grouping) contributes nothing. -/
def reconstructGroup : List SearchHit → Option SearchHit
  | [] => none
  | [c] => some c
  | c1 :: c2 :: rest => some (mergeChunks (c1 :: c2 :: rest))

/-- Split-node reconstruction, mirroring
`ChromaAdapter.reconstructSplitNodes`: group hits by
`relativePath | className | methodName` and merge every group with more than
one member. -/
def reconstructSplitNodes (hits : List SearchHit) : List SearchHit :=
  (groupByKey hits).filterMap (fun p => reconstructGroup p.2)

/-- Character-list substring test: does `sub` occur contiguously in the
haystack?  Used to model JS `String.includes` and the Chroma metadata
operator for substring containment. -/
def listHasSub (sub : List Char) : List Char → Bool
  | [] => sub.isPrefixOf []
  | c :: t => sub.isPrefixOf (c :: t) || listHasSub sub t

/-- String substring containment (JS `s.includes(sub)`). -/
def strContains (s sub : String) : Bool :=
  listHasSub sub.toList s.toList

/-- Containment test on an optional metadata field: a missing field never
matches (the stored metadata simply lacks the key). -/
def optContains (o : Option String) (sub : String) : Bool :=
  match o with
  | some s => strContains s sub
  | none => false

/-- One stored chunk of a Chroma collection: id, document text and
metadata, as the ingestion wrote them. -/
structure StoredChunk where
  id : String
  document : String
  metadata : ChunkMetadata
deriving DecidableEq, Repr

/-- Behaviour of `collection.get(\x7b where, limit \x7d)` on the backend:
return the stored chunks satisfying the where-clause predicate, truncated
to `limit`. -/
def chromaGet (chunks : List StoredChunk) (wherePred : StoredChunk → Bool)
    (limit : Nat) : List StoredChunk :=
  (chunks.filter wherePred).take limit

/-- A configured collection as the adapter sees it: its name paired with
either the chunks a query over it yields or the error the query raises
(the `catch` target). -/
abbrev GetCollections := List (String × Except String (List StoredChunk))

/-- Conversion of one returned row to a `SearchHit`, guarded by the
truthiness check `if (metadata && document && id)` of the source: an empty
document or id string is falsy and the row is dropped. -/
def rawToHit (collectionName : String) (c : StoredChunk) : Option SearchHit :=
  if c.document = "" ∨ c.id = "" then none
  else some
    { chunkId := c.id, text := c.document, score := none, distance := none,
      metadata := c.metadata, collectionName := some collectionName }

/-- Where-clause of `searchBySymbolName`: className or methodName contains
the symbol, intersected with a relativePath containment disjunction when a
non-empty `filePaths` list is given (`filePaths && filePaths.length > 0`). -/
def symbolWhere (symbol : String) (filePaths : Option (List String))
    (c : StoredChunk) : Bool :=
  let symCond := optContains c.metadata.className symbol ||
    optContains c.metadata.methodName symbol
  match filePaths with
  | some ps =>
      if ps.length > 0 then
        symCond && ps.any (fun p => strContains c.metadata.relativePath p)
      else symCond
  | none => symCond

/-- Hits one collection contributes to a symbol search: nothing when its
query failed (the `catch` branch logs and continues), otherwise the
where-filtered chunks capped at `limit: 100` and converted to hits. -/
def symbolContribution (symbol : String) (filePaths : Option (List String))
    (entry : String × Except String (List StoredChunk)) : List SearchHit :=
  match entry.2 with
  | .error _ => []
  | .ok chunks =>
      (chromaGet chunks (symbolWhere symbol filePaths) 100).filterMap
        (rawToHit entry.1)

/-- Model of `ChromaAdapter.searchBySymbolName`: union the per-collection
hits in collection order, then apply split-node reconstruction. -/
def searchBySymbolName (symbol : String) (filePaths : Option (List String))
    (collections : GetCollections) : List SearchHit :=
  reconstructSplitNodes
    (collections.flatMap (symbolContribution symbol filePaths))

/-- Result of file retrieval, mirroring `FileResult`:
the aggregated contents plus the first (lowest `lineStart`) chunk's
metadata when any chunk exists. -/
structure FileResult where
  filePath : String
  contents : String
  metadata : Option ChunkMetadata
deriving DecidableEq, Repr

/-- Hits one collection contributes to file retrieval: the chunks whose
`relativePath` equals the requested path exactly (`where: \x7b relativePath:
filePath \x7d`), capped at `limit: 1000`; an errored collection contributes
nothing. -/
def fileContribution (filePath : String)
    (entry : String × Except String (List StoredChunk)) : List SearchHit :=
  match entry.2 with
  | .error _ => []
  | .ok chunks =>
      (chromaGet chunks (fun c => c.metadata.relativePath == filePath) 1000).filterMap
        (rawToHit entry.1)

/-- Model of `ChromaAdapter.getFileByPath`: union all chunks found for the
exact path across collections, fail when none was found, otherwise sort
ascending by `lineStart` and join the texts with blank lines. -/
def getFileByPath (filePath : String) (collections : GetCollections) :
    Except String FileResult :=
  let allChunks := collections.flatMap (fileContribution filePath)
  if allChunks.isEmpty then .error ("File not found: " ++ filePath)
  else
    let sorted := sortByLineStart allChunks
    .ok { filePath := filePath
        , contents := String.intercalate "\n\n" (sorted.map SearchHit.text)
        , metadata := sorted.head?.map SearchHit.metadata }

/-- Where-clause of `regexSearch`: a relativePath containment disjunction
when a non-empty `filePaths` list is given, otherwise no filter at all. -/
def regexWhere (filePaths : Option (List String)) (c : StoredChunk) : Bool :=
  match filePaths with
  | some ps =>
      if ps.length > 0 then ps.any (fun p => strContains c.metadata.relativePath p)
      else true
  | none => true

/-- Hits one collection contributes to a regex search: candidate chunks
(path-filtered, capped at `limit: 1000`) whose document passes the
client-side compiled-regex test; the compiled `RegExp` (including the
leading case-insensitive-flag convention) is the `test` parameter. -/
def regexContribution (test : String → Bool) (filePaths : Option (List String))
    (entry : String × Except String (List StoredChunk)) : List SearchHit :=
  match entry.2 with
  | .error _ => []
  | .ok chunks =>
      (chromaGet chunks (regexWhere filePaths) 1000).filterMap (fun c =>
        match rawToHit entry.1 c with
        | some h => if test h.text then some h else none
        | none => none)

/-- Model of `ChromaAdapter.regexSearch`: union the per-collection matches
in collection order; no reconstruction is applied on this path. -/
def regexSearch (test : String → Bool) (filePaths : Option (List String))
    (collections : GetCollections) : List SearchHit :=
  collections.flatMap (regexContribution test filePaths)

/-- Client-side query filter fields read by the adapter, mirroring
`QueryFilter`.  The fields `packageName`, `className`, `chunkType` and
`language` are translated by `buildWhereClause` into the backend where
clause (and so act on the backend side of the model); `collectionName` and
`relativePath` are enforced client-side by `semanticSearch`. -/
structure QueryFilter where
  collectionName : Option String
  relativePath : Option String
  packageName : Option String
  className : Option String
  chunkType : Option String
  language : Option String
deriving DecidableEq, Repr

/-- One ranked row of a `collection.query` response: every field can be
absent, and the distance defaults to `0` (`?? 0`). -/
structure QueryRow where
  id : Option String
  document : Option String
  metadata : Option ChunkMetadata
  distance : Option ℚ
deriving DecidableEq, Repr

/-- Score used for ordering (`hit.score || 0`): an absent score counts as
zero.  On hits built by `semanticSearch` the score is always present. -/
def scoreD (h : SearchHit) : ℚ :=
  h.score.getD 0

/-- Collection-skip test of `semanticSearch`
(`if (filter?.collectionName && filter.collectionName !== collectionName)
continue`): an absent or empty filter name is falsy and skips nothing. -/
def collectionSkip (filter : Option QueryFilter) (collectionName : String) : Bool :=
  match filter with
  | some f =>
      match f.collectionName with
      | some fc => decide (fc ≠ "") && decide (fc ≠ collectionName)
      | none => false
  | none => false

/-- Client-side relativePath post-filter of `semanticSearch`: when the
filter carries a truthy `relativePath`, a row whose metadata path is empty
or does not contain it is dropped. -/
def relPathSkip (filter : Option QueryFilter) (md : ChunkMetadata) : Bool :=
  match filter with
  | some f =>
      match f.relativePath with
      | some rp =>
          if rp = "" then false
          else decide (md.relativePath = "") || !(strContains md.relativePath rp)
      | none => false
  | none => false

/-- Conversion of one ranked row to a scored hit, mirroring the inner loop
of `semanticSearch`: the truthiness guard on metadata, document and id, the
distance-to-similarity conversion `1 / (1 + distance)` and the client-side
relativePath post-filter. -/
def rowToHit (filter : Option QueryFilter) (collectionName : String)
    (r : QueryRow) : Option SearchHit :=
  let distance := r.distance.getD 0
  match r.metadata, r.document, r.id with
  | some md, some doc, some id =>
      if doc = "" ∨ id = "" then none
      else if relPathSkip filter md then none
      else some
        { chunkId := id, text := doc, score := some (1 / (1 + distance)),
          distance := some distance, metadata := md,
          collectionName := some collectionName }
  | _, _, _ => none

/-- Merged candidate list of a semantic search, before sorting and
truncation: every non-skipped, non-errored collection contributes its
converted rows in collection order. -/
def semCandidates (filter : Option QueryFilter)
    (collections : List (String × Except String (List QueryRow))) :
    List SearchHit :=
  collections.flatMap (fun entry =>
    if collectionSkip filter entry.1 then []
    else
      match entry.2 with
      | .error _ => []
      | .ok rows => rows.filterMap (rowToHit filter entry.1))

/-- Effective top-K of a semantic search (`topK || this.config.topK`):
an absent or zero requested value falls back to the configured default. -/
def semKVal (cfgTopK : Nat) (topK : Option Nat) : Nat :=
  match topK with
  | some n => if n = 0 then cfgTopK else n
  | none => cfgTopK

/-- Descending sort by score
(`allHits.sort((a, b) => (b.score || 0) - (a.score || 0))`). -/
def sortByScoreDesc (hits : List SearchHit) : List SearchHit :=
  hits.insertionSort (fun a b => scoreD b ≤ scoreD a)

/-- Model of `ChromaAdapter.semanticSearch`: merge all collections'
candidates, sort by score descending and take the top K of the union. -/
def semanticSearch (cfgTopK : Nat) (topK : Option Nat)
    (filter : Option QueryFilter)
    (collections : List (String × Except String (List QueryRow))) :
    List SearchHit :=
  (sortByScoreDesc (semCandidates filter collections)).take (semKVal cfgTopK topK)

/-- Role of a conversation turn. -/
inductive TurnRole where
  | user
  | assistant
deriving DecidableEq, Repr

/-- One persisted conversation turn, mirroring `Turn` in
`ConversationManager.ts`; the optional stored embedding is a rational
vector. -/
structure Turn where
  role : TurnRole
  content : String
  timestamp : Nat
  embedding : Option (List ℚ)
deriving DecidableEq, Repr

/-- Cache lookup result, mirroring `CachedResponse`. -/
structure CachedResponse where
  query : String
  response : String
  similarity : ℚ
  timestamp : Nat
deriving DecidableEq, Repr

/-- Loop of `findSimilarQuery` over the stored turns, tracking the best
similarity and best match.  The TS iterates the filtered user turns and
recovers each turn's position with `history.indexOf(turn)` (reference
identity), so the candidate assistant response is exactly the turn that
follows in the stored order; the model therefore walks the history itself,
skipping non-user turns and turns without an embedding, and reads the
follower from the head of the remaining list.  The similarity kernel
`sim e` stands for `cosineSimilarity(queryEmbedding, e)`, whose
floating-point square roots are abstracted as an oracle. -/
def fsqLoop (threshold : ℚ) (sim : List ℚ → ℚ) :
    List Turn → ℚ → Option CachedResponse → Option CachedResponse
  | [], _, best => best
  | t :: rest, bestSim, best =>
      if t.role = TurnRole.user then
        match t.embedding with
        | some e =>
            let s := sim e
            if bestSim < s ∧ threshold ≤ s then
              let best2 :=
                match rest.head? with
                | some nextTurn =>
                    if nextTurn.role = TurnRole.assistant then
                      some { query := t.content, response := nextTurn.content,
                             similarity := s, timestamp := t.timestamp }
                    else best
                | none => best
              fsqLoop threshold sim rest s best2
            else fsqLoop threshold sim rest bestSim best
        | none => fsqLoop threshold sim rest bestSim best
      else fsqLoop threshold sim rest bestSim best

/-- Model of `ConversationManager.findSimilarQuery`: nothing is returned
when the history is empty or the cache threshold is not positive
(`memoryCacheThreshold <= 0`); otherwise the loop runs with best
similarity `0` and no best match. -/
def findSimilarQuery (threshold : ℚ) (sim : List ℚ → ℚ)
    (history : List Turn) : Option CachedResponse :=
  if history.length = 0 ∨ threshold ≤ 0 then none
  else fsqLoop threshold sim history 0 none

/-- Outcome of one CLI query in `main.ts`: either the cached response is
printed with no planning or step execution, or the agent pipeline runs and
its answer is printed. -/
inductive MainOutcome where
  | cachedAnswer (response : String)
  | plannedAnswer (answer : String)
deriving DecidableEq, Repr

/-- Control flow of `main` around the cache: with memory enabled, a cache
hit short-circuits before `runAgent` is ever invoked; otherwise the agent
answer (here an oracle value, since planning and step execution happen
inside `runAgent`) is produced. -/
def mainFlow (memoryEnabled : Bool) (threshold : ℚ) (sim : List ℚ → ℚ)
    (history : List Turn) (agentAnswer : String) : MainOutcome :=
  if memoryEnabled then
    match findSimilarQuery threshold sim history with
    | some c => MainOutcome.cachedAnswer c.response
    | none => MainOutcome.plannedAnswer agentAnswer
  else MainOutcome.plannedAnswer agentAnswer

/-- Memory-relevant configuration fields of `loadConfig` (`config/env.ts`). -/
structure MemCfg where
  memorySummarizationEnabled : Bool
  historyContextSize : Nat
  historyRetentionSize : Nat
  memoryMaxTokens : Nat
deriving DecidableEq, Repr

/-- State of a `ConversationManager`: the raw turn log and the rolling
summary string. -/
structure ConvState where
  history : List Turn
  summary : String
deriving DecidableEq, Repr

/-- Token estimate of `HistorySummarizer.estimateTokens`:
`Math.ceil(text.length / 4)`. -/
def estimateTokens (text : String) : Nat :=
  (text.length + 3) / 4

/-- Display label of a role in the formatted history. -/
def roleLabel (r : TurnRole) : String :=
  match r with
  | TurnRole.user => "User"
  | TurnRole.assistant => "Assistant"

/-- Model of `ConversationManager.getHistoryContext`: the last
`contextLimit` turns formatted as labelled lines, prefixed by the rolling
summary block when one exists.  JS `slice(-n)` with `n` at least the length
gives the whole array and `slice(-0)` gives the whole array as well. -/
def getHistoryContext (cfg : MemCfg) (st : ConvState) (limit : Option Nat) :
    String :=
  if st.history.isEmpty ∧ st.summary = "" then ""
  else
    let contextLimit := limit.getD cfg.historyContextSize
    let recent :=
      if contextLimit = 0 then st.history
      else st.history.drop (st.history.length - contextLimit)
    let recentText := String.intercalate "\n\n"
      (recent.map (fun t => roleLabel t.role ++ ": " ++ t.content))
    if st.summary ≠ "" then
      "[Previous conversation summary]\n" ++ st.summary ++
        "\n\n[Recent conversation]\n" ++ recentText
    else recentText

/-- Model of `ConversationManager.maybeSummarize`: when the estimated token
size of the current context exceeds the budget and turns exist outside the
context window, summarize the last ten of those older turns (the summarizer
call, which internally never throws, is the `summaryOracle`), append the
non-empty result to the rolling summary and cap the summary at its last
1000 characters.  JS `slice(0, -n)` with `n` at least the length gives the
empty array, as does `slice(0, -0)`. -/
def maybeSummarize (cfg : MemCfg) (summaryOracle : List Turn → String)
    (st : ConvState) : ConvState :=
  let olderTurns :=
    if cfg.historyContextSize = 0 then []
    else st.history.take (st.history.length - cfg.historyContextSize)
  let estimatedTokens := estimateTokens (getHistoryContext cfg st none)
  if estimatedTokens ≤ cfg.memoryMaxTokens ∨ olderTurns.isEmpty then st
  else
    let turnsToSummarize := olderTurns.drop (olderTurns.length - 10)
    let newSummary := summaryOracle turnsToSummarize
    if newSummary = "" then st
    else
      let combined :=
        if st.summary ≠ "" then st.summary ++ "\n" ++ newSummary
        else newSummary
      let trimmed :=
        if combined.length > 1000 then combined.takeRight 1000 else combined
      { st with summary := trimmed }

/-- Model of `ConversationManager.saveTurn`: push the user turn (with the
best-effort embedding, `none` when embedding failed) and the assistant turn,
run summarization when it is enabled and an LLM was passed, then drop the
oldest raw turns beyond the retention limit
(`history.slice(history.length - retentionLimit)`). -/
def saveTurn (cfg : MemCfg) (summaryOracle : List Turn → String)
    (st : ConvState) (userQuery agentResponse : String) (timestamp : Nat)
    (userEmbedding : Option (List ℚ)) (llmProvided : Bool) : ConvState :=
  let h1 := st.history ++
    [ { role := TurnRole.user, content := userQuery, timestamp := timestamp,
        embedding := userEmbedding }
    , { role := TurnRole.assistant, content := agentResponse,
        timestamp := timestamp, embedding := none } ]
  let st1 : ConvState := { history := h1, summary := st.summary }
  let st2 :=
    if cfg.memorySummarizationEnabled ∧ llmProvided then
      maybeSummarize cfg summaryOracle st1
    else st1
  if st2.history.length > cfg.historyRetentionSize then
    { history := st2.history.drop (st2.history.length - cfg.historyRetentionSize)
    , summary := st2.summary }
  else st2

/-- One tool invocation requested by the model, mirroring `ToolCall`
(`id`, `function.name`, `function.arguments` as a raw JSON string). -/
structure ToolCallReq where
  id : String
  name : String
  arguments : String
deriving DecidableEq, Repr

/-- Payload of a tool-result message: either the rendered tool result or
the `\x7b error: message \x7d` object the catch branch builds. -/
inductive ToolPayload where
  | result (v : String)
  | errorPayload (msg : String)
deriving DecidableEq, Repr

/-- Conversation messages of the step loop. -/
inductive MMessage where
  | system (content : String)
  | user (content : String)
  | assistant (content : Option String) (toolCalls : List ToolCallReq)
  | toolResult (id : String) (name : String) (payload : ToolPayload)
deriving DecidableEq, Repr

/-- A model chat response: optional text content plus requested tool
invocations (an absent `tool_calls` is the empty list). -/
structure ChatResponse where
  content : Option String
  toolCalls : List ToolCallReq
deriving DecidableEq, Repr

/-- A registered tool as the step loop uses it: schema validation
(`BaseTool.parse`, which throws a descriptive error on malformed
arguments) and execution against the read-only context, each of which can
fail. -/
structure MTool where
  parse : String → Except String String
  run : String → Except String String

/-- Handling of one tool invocation inside `runStep`'s try/catch: look the
tool up (an unknown name raises `ToolError(name, 'Tool not found')`), parse
the raw JSON arguments, validate, execute; any failure is caught and
appended as an error payload, so every invocation yields exactly one
tool-result message. -/
def handleToolCall (registry : String → Option MTool)
    (jsonParse : String → Except String String) (tc : ToolCallReq) :
    MMessage :=
  let outcome : Except String String :=
    match registry tc.name with
    | none => .error ("Tool \"" ++ tc.name ++ "\" Error: Tool not found")
    | some tool =>
        match jsonParse tc.arguments with
        | .error e => .error e
        | .ok args =>
            match tool.parse args with
            | .error e => .error e
            | .ok parsed => tool.run parsed
  match outcome with
  | .ok v => MMessage.toolResult tc.id tc.name (ToolPayload.result v)
  | .error e => MMessage.toolResult tc.id tc.name (ToolPayload.errorPayload e)

/-- Tool-execution loop of `runStep` (`while (turnCount < maxTurns)`),
parameterized by the chat oracle (one completion offering the tool catalog
per iteration).  Returns the final message list and the number of chat
calls issued.  A response with tool calls appends the assistant message and
one result message per invocation and continues; a response without tool
calls ends the loop early. -/
def stepLoop (chat : List MMessage → ChatResponse)
    (registry : String → Option MTool)
    (jsonParse : String → Except String String) :
    Nat → List MMessage → List MMessage × Nat
  | 0, msgs => (msgs, 0)
  | fuel + 1, msgs =>
      let resp := chat msgs
      if resp.toolCalls.isEmpty then (msgs, 1)
      else
        let msgs2 := msgs ++
          MMessage.assistant resp.content resp.toolCalls ::
            resp.toolCalls.map (handleToolCall registry jsonParse)
        let next := stepLoop chat registry jsonParse fuel msgs2
        (next.1, next.2 + 1)

/-- Status values of a step outcome (`StepOutcomeSchema`). -/
inductive OutcomeStatus where
  | completed
  | failed
deriving DecidableEq, Repr

/-- Outcome of one executed step (`StepOutcome` in `planning/schemas.ts`). -/
structure StepOutcome where
  stepId : Nat
  status : OutcomeStatus
  summary : String
deriving DecidableEq, Repr

/-- Status values of a plan step (`PlanStepSchema`). -/
inductive StepStatus where
  | pending
  | inProgress
  | completed
  | failed
deriving DecidableEq, Repr

/-- One plan step (`PlanStep` in `planning/schemas.ts`). -/
structure PlanStep where
  id : Nat
  title : String
  description : String
  status : StepStatus
deriving DecidableEq, Repr

/-- Model of `runStep`: seed the three messages, run the bounded tool loop,
then request a structured outcome; when that last request fails, a `failed`
outcome carrying the error text is synthesized instead of propagating the
exception.  The second component counts the tool-resolution chat calls the
loop issued. -/
def runStep (maxTurns : Nat) (chat : List MMessage → ChatResponse)
    (registry : String → Option MTool)
    (jsonParse : String → Except String String)
    (outcomeOracle : List MMessage → Except String StepOutcome)
    (stepSystemPrompt stepDeveloperPrompt : String) (step : PlanStep)
    (userQuery : String) : StepOutcome × Nat :=
  let initial : List MMessage :=
    [ MMessage.system stepSystemPrompt
    , MMessage.user stepDeveloperPrompt
    , MMessage.user ("Original question: " ++ userQuery ++
        "\n\nCurrent step to complete:\n" ++ step.title ++ "\n\n" ++
        step.description) ]
  let looped := stepLoop chat registry jsonParse maxTurns initial
  let outcomeMessages := looped.1 ++
    [ MMessage.user ("Summarize the outcome of this step. Return a structured response with:\n- stepId: " ++
        toString step.id ++
        "\n- status: \"completed\" or \"failed\"\n- summary: brief summary of what was found or accomplished") ]
  match outcomeOracle outcomeMessages with
  | .ok o => (o, looped.2)
  | .error e =>
      ( { stepId := step.id, status := OutcomeStatus.failed,
          summary := "Failed to complete step: " ++ e }
      , looped.2 )

/-- Decision values of the evaluator (`PlanDecisionSchema`); `continueStep`
models the string value `continue`. -/
inductive DecisionKind where
  | continueStep
  | finalize
  | revise
deriving DecidableEq, Repr

/-- Evaluator decision (`PlanDecision` in `planning/schemas.ts`). -/
structure PlanDecision where
  decision : DecisionKind
  reason : String
  newSteps : Option (List PlanStep)
deriving DecidableEq, Repr

/-- Model of `evaluate` in `runtime/evaluator.ts` at its try/catch
boundary: the structured-output call either yields a decision or fails, and
a failure degrades to a `continue` decision instead of aborting. -/
def evaluate (structuredResult : Except String PlanDecision) : PlanDecision :=
  match structuredResult with
  | .ok d => d
  | .error e =>
      { decision := DecisionKind.continueStep
      , reason := "Evaluation failed, continuing with plan: " ++ e
      , newSteps := none }

/-- A plan (`PlanSchema`). -/
structure Plan where
  steps : List PlanStep
deriving DecidableEq, Repr

/-- Model of `planFromQuery` in `planning/planner.ts` at its try/catch
boundary: a structured-output failure is wrapped and rethrown
(`throw new Error('Failed to create plan: ...')`), aborting the query. -/
def planFromQuery (structuredResult : Except String Plan) :
    Except String Plan :=
  match structuredResult with
  | .ok p => .ok p
  | .error e => .error ("Failed to create plan: " ++ e)

/-- Predicate recording the pairing invariant `saveTurn` maintains on the
persisted history: every user turn is immediately followed by an assistant
turn (turns are always appended in user/assistant pairs and the retention
slice drops only from the front). -/
def wellPaired : List Turn → Bool
  | [] => true
  | t :: rest =>
      (if t.role = TurnRole.user then
        match rest.head? with
        | some nxt => decide (nxt.role = TurnRole.assistant)
        | none => false
      else true) && wellPaired rest

theorem stepLoop_count_le (chat : List MMessage → ChatResponse)
    (registry : String → Option MTool)
    (jsonParse : String → Except String String) :
    ∀ (fuel : Nat) (msgs : List MMessage),
      (stepLoop chat registry jsonParse fuel msgs).2 ≤ fuel := by
  intro fuel
  induction fuel with
  | zero => intro msgs; simp [stepLoop]
  | succ n ih =>
      intro msgs
      simp only [stepLoop]
      split
      · simp
      · exact Nat.succ_le_succ (ih _)

/-- C3: for every execution of a single plan step, the tool-calling loop of
`runStep` issues at most `maxTurns` tool-resolution chat calls (the
completions offering the tool catalog), whatever the model and the tools
do. -/
theorem runStep_at_most_maxTurns_tool_calls (maxTurns : Nat)
    (chat : List MMessage → ChatResponse) (registry : String → Option MTool)
    (jsonParse : String → Except String String)
    (outcomeOracle : List MMessage → Except String StepOutcome)
    (stepSystemPrompt stepDeveloperPrompt : String) (step : PlanStep)
    (userQuery : String) :
    (runStep maxTurns chat registry jsonParse outcomeOracle stepSystemPrompt
      stepDeveloperPrompt step userQuery).2 ≤ maxTurns := by
  unfold runStep
  cases hx : outcomeOracle ((stepLoop chat registry jsonParse maxTurns
      [ MMessage.system stepSystemPrompt, MMessage.user stepDeveloperPrompt,
        MMessage.user ("Original question: " ++ userQuery ++
          "\n\nCurrent step to complete:\n" ++ step.title ++ "\n\n" ++
          step.description)]).1 ++
      [MMessage.user ("Summarize the outcome of this step. Return a structured response with:\n- stepId: " ++
        toString step.id ++
        "\n- status: \"completed\" or \"failed\"\n- summary: brief summary of what was found or accomplished")]) with
  | ok o => simp only [hx]; exact stepLoop_count_le _ _ _ _ _
  | error e => simp only [hx]; exact stepLoop_count_le _ _ _ _ _

/-- C4: every tool invocation requested during a step — malformed
arguments, unknown tool, failing execution included — yields exactly one
tool-result message carrying the caught error, and the loop appends the
results and continues instead of propagating an exception. -/
theorem tool_errors_fed_back_not_thrown :
    (∀ (registry : String → Option MTool)
      (jsonParse : String → Except String String) (tc : ToolCallReq),
      ∃ p, handleToolCall registry jsonParse tc =
        MMessage.toolResult tc.id tc.name p) ∧
    (∀ (registry : String → Option MTool)
      (jsonParse : String → Except String String) (tc : ToolCallReq),
      registry tc.name = none →
      handleToolCall registry jsonParse tc =
        MMessage.toolResult tc.id tc.name
          (ToolPayload.errorPayload
            ("Tool \"" ++ tc.name ++ "\" Error: Tool not found"))) ∧
    (∀ (registry : String → Option MTool)
      (jsonParse : String → Except String String) (tc : ToolCallReq)
      (tool : MTool) (e : String),
      registry tc.name = some tool → jsonParse tc.arguments = .error e →
      handleToolCall registry jsonParse tc =
        MMessage.toolResult tc.id tc.name (ToolPayload.errorPayload e)) ∧
    (∀ (registry : String → Option MTool)
      (jsonParse : String → Except String String) (tc : ToolCallReq)
      (tool : MTool) (args e : String),
      registry tc.name = some tool → jsonParse tc.arguments = .ok args →
      tool.parse args = .error e →
      handleToolCall registry jsonParse tc =
        MMessage.toolResult tc.id tc.name (ToolPayload.errorPayload e)) ∧
    (∀ (registry : String → Option MTool)
      (jsonParse : String → Except String String) (tc : ToolCallReq)
      (tool : MTool) (args parsed e : String),
      registry tc.name = some tool → jsonParse tc.arguments = .ok args →
      tool.parse args = .ok parsed → tool.run parsed = .error e →
      handleToolCall registry jsonParse tc =
        MMessage.toolResult tc.id tc.name (ToolPayload.errorPayload e)) ∧
    (∀ (chat : List MMessage → ChatResponse)
      (registry : String → Option MTool)
      (jsonParse : String → Except String String) (fuel : Nat)
      (msgs : List MMessage),
      (chat msgs).toolCalls ≠ [] →
      stepLoop chat registry jsonParse (fuel + 1) msgs =
        ((stepLoop chat registry jsonParse fuel
            (msgs ++ MMessage.assistant (chat msgs).content (chat msgs).toolCalls ::
              (chat msgs).toolCalls.map (handleToolCall registry jsonParse))).1,
          (stepLoop chat registry jsonParse fuel
            (msgs ++ MMessage.assistant (chat msgs).content (chat msgs).toolCalls ::
              (chat msgs).toolCalls.map (handleToolCall registry jsonParse))).2 + 1)) := by
  refine ⟨?_, ?_, ?_, ?_, ?_, ?_⟩
  · intro registry jsonParse tc
    unfold handleToolCall
    split
    · exact ⟨_, rfl⟩
    · dsimp only
      split
      · exact ⟨_, rfl⟩
      · exact ⟨_, rfl⟩
  · intro registry jsonParse tc hreg
    simp only [handleToolCall, hreg]
  · intro registry jsonParse tc tool e hreg hjp
    simp only [handleToolCall, hreg, hjp]
  · intro registry jsonParse tc tool args e hreg hjp hp
    simp only [handleToolCall, hreg, hjp, hp]
  · intro registry jsonParse tc tool args parsed e hreg hjp hp hr
    simp only [handleToolCall, hreg, hjp, hp, hr]
  · intro chat registry jsonParse fuel msgs hne
    simp only [stepLoop, List.isEmpty_iff]
    rw [if_neg hne]

/-- Witness for C4 at a concrete invocation of an unregistered tool: the
loop receives a tool-result message with the caught error payload. -/
theorem tool_errors_fed_back_not_thrown_witness :
    handleToolCall (fun _ => none) (fun s => Except.ok s)
      { id := "call1", name := "nope", arguments := "x" } =
      MMessage.toolResult "call1" "nope"
        (ToolPayload.errorPayload "Tool \"nope\" Error: Tool not found") := by
  have h := tool_errors_fed_back_not_thrown.2.1 (fun _ => none)
    (fun s => Except.ok s) { id := "call1", name := "nope", arguments := "x" } rfl
  simpa using h

/-- C9 (amended): a malformed or failed structured output degrades the
Evaluator to a `continue` decision, but the Planner wraps and rethrows the
failure, aborting the query instead of degrading to a default. -/
theorem evaluator_defaults_continue_planner_throws :
    (∀ e : String,
      (evaluate (Except.error e)).decision = DecisionKind.continueStep ∧
      evaluate (Except.error e) =
        { decision := DecisionKind.continueStep
        , reason := "Evaluation failed, continuing with plan: " ++ e
        , newSteps := none }) ∧
    (∀ e : String,
      planFromQuery (Except.error e) =
        Except.error ("Failed to create plan: " ++ e)) := by
  exact ⟨fun e => ⟨rfl, rfl⟩, fun e => rfl⟩

/-- Counterexample for C9 as frozen: at the concrete failing model output
`model failure`, the Planner does not degrade to any safe-default plan — it
rethrows, so no plan is produced and the query aborts. -/
theorem planner_does_not_degrade_counterexample :
    planFromQuery (Except.error "model failure") =
      Except.error ("Failed to create plan: model failure") ∧
    ∀ p : Plan, planFromQuery (Except.error "model failure") ≠ Except.ok p := by
  exact ⟨rfl, fun p h => by simp [planFromQuery] at h⟩

/-- C5: during any multi-collection query — symbol search, file retrieval,
regex search or semantic search — a collection whose query raises an error
contributes exactly what an empty collection would: the operation returns
the merged results of the remaining collections unchanged and never
aborts. -/
theorem collection_failure_isolated (symbol filePath : String)
    (filePaths : Option (List String)) (test : String → Bool)
    (cfgTopK : Nat) (topK : Option Nat) (filter : Option QueryFilter)
    (name e : String) (pre post : GetCollections)
    (preQ postQ : List (String × Except String (List QueryRow))) :
    searchBySymbolName symbol filePaths (pre ++ (name, .error e) :: post) =
      searchBySymbolName symbol filePaths (pre ++ (name, .ok []) :: post) ∧
    getFileByPath filePath (pre ++ (name, .error e) :: post) =
      getFileByPath filePath (pre ++ (name, .ok []) :: post) ∧
    regexSearch test filePaths (pre ++ (name, .error e) :: post) =
      regexSearch test filePaths (pre ++ (name, .ok []) :: post) ∧
    semanticSearch cfgTopK topK filter (preQ ++ (name, .error e) :: postQ) =
      semanticSearch cfgTopK topK filter (preQ ++ (name, .ok []) :: postQ) := by
  refine ⟨?_, ?_, ?_, ?_⟩
  · simp [searchBySymbolName, symbolContribution, chromaGet]
  · have hflat : (pre ++ (name, Except.error e) :: post).flatMap
        (fileContribution filePath) =
        (pre ++ (name, Except.ok []) :: post).flatMap
        (fileContribution filePath) := by
      simp [fileContribution, chromaGet]
    simp only [getFileByPath, hflat]
  · simp [regexSearch, regexContribution, chromaGet]
  · simp [semanticSearch, semCandidates]

/-- C10: each collection feeds at most 100 raw matching chunks into a
symbol search (the per-collection fetch passes `limit: 100`), chunks beyond
the cap being dropped before split-node reconstruction runs on the merged
union. -/
theorem symbol_search_per_collection_cap (symbol : String)
    (filePaths : Option (List String)) (collections : GetCollections) :
    searchBySymbolName symbol filePaths collections =
      reconstructSplitNodes
        (collections.flatMap (symbolContribution symbol filePaths)) ∧
    ∀ entry ∈ collections,
      (symbolContribution symbol filePaths entry).length ≤ 100 ∧
      ∀ chunks, entry.2 = .ok chunks →
        symbolContribution symbol filePaths entry =
          ((chunks.filter (symbolWhere symbol filePaths)).take 100).filterMap
            (rawToHit entry.1) := by
  refine ⟨rfl, ?_⟩
  intro entry _ 
  constructor
  · cases hx : entry.2 with
    | error e => simp [symbolContribution, hx]
    | ok chunks =>
        simp only [symbolContribution, hx]
        calc ((chromaGet chunks (symbolWhere symbol filePaths) 100).filterMap
                (rawToHit entry.1)).length
            ≤ (chromaGet chunks (symbolWhere symbol filePaths) 100).length :=
              List.length_filterMap_le _ _
          _ ≤ 100 := by
              simp [chromaGet]
  · intro chunks hx
    simp [symbolContribution, hx, chromaGet]

/-- Witness for C10 at a concrete configuration of one collection holding a
single chunk: the collection's raw contribution is within the cap. -/
theorem symbol_search_per_collection_cap_witness :
    (symbolContribution "Foo" none ("code", Except.ok [])).length ≤ 100 := by
  have h := (symbol_search_per_collection_cap "Foo" none
    [("code", Except.ok [])]).2 ("code", Except.ok [])
    (List.mem_singleton.mpr rfl)
  exact h.1

/-- C7: file retrieval returns the union of all chunks found for the exact
path across collections, sorted ascending by start line and concatenated
with blank lines, and fails exactly when no collection yields a chunk. -/
theorem getFileByPath_union_sorted_concat (filePath : String)
    (collections : GetCollections) :
    ((∃ e, getFileByPath filePath collections = Except.error e) ↔
      collections.flatMap (fileContribution filePath) = []) ∧
    (∀ r, getFileByPath filePath collections = Except.ok r →
      r.contents = String.intercalate "\n\n"
        ((sortByLineStart
          (collections.flatMap (fileContribution filePath))).map SearchHit.text) ∧
      (sortByLineStart (collections.flatMap (fileContribution filePath))).Perm
        (collections.flatMap (fileContribution filePath)) ∧
      List.Sorted
        (fun a b : SearchHit => a.metadata.lineStart ≤ b.metadata.lineStart)
        (sortByLineStart (collections.flatMap (fileContribution filePath)))) ∧
    (∀ h ∈ collections.flatMap (fileContribution filePath),
      h.metadata.relativePath = filePath) := by
  have hsorted : List.Sorted
      (fun a b : SearchHit => a.metadata.lineStart ≤ b.metadata.lineStart)
      (sortByLineStart (collections.flatMap (fileContribution filePath))) := by
    haveI : IsTotal SearchHit
        (fun a b => a.metadata.lineStart ≤ b.metadata.lineStart) :=
      ⟨fun a b => le_total _ _⟩
    haveI : IsTrans SearchHit
        (fun a b => a.metadata.lineStart ≤ b.metadata.lineStart) :=
      ⟨fun _ _ _ hab hbc => le_trans hab hbc⟩
    exact List.sorted_insertionSort _ _
  refine ⟨?_, ?_, ?_⟩
  · constructor
    · rintro ⟨e, he⟩
      by_cases hemp :
          (collections.flatMap (fileContribution filePath)).isEmpty = true
      · exact List.isEmpty_iff.mp hemp
      · simp only [getFileByPath, hemp] at he
        simp at he
    · intro hnil
      refine ⟨"File not found: " ++ filePath, ?_⟩
      simp [getFileByPath, hnil]
  · intro r hr
    by_cases hemp :
        (collections.flatMap (fileContribution filePath)).isEmpty = true
    · simp [getFileByPath, hemp] at hr
    · simp only [getFileByPath] at hr
      rw [if_neg hemp] at hr
      obtain rfl := (Except.ok.inj hr).symm
      exact ⟨rfl, List.perm_insertionSort _ _, hsorted⟩
  · intro h hmem
    rw [List.mem_flatMap] at hmem
    obtain ⟨entry, _, hmem2⟩ := hmem
    cases hE : entry.2 with
    | error e => simp [fileContribution, hE] at hmem2
    | ok chunks =>
        simp only [fileContribution, hE] at hmem2
        rw [List.mem_filterMap] at hmem2
        obtain ⟨c, hc, hraw⟩ := hmem2
        have hcf : c ∈ (chunks.filter
            (fun c => c.metadata.relativePath == filePath)) :=
          List.mem_of_mem_take hc
        have hpred := (List.mem_filter.mp hcf).2
        have hcp : c.metadata.relativePath = filePath := by
          simpa using hpred
        unfold rawToHit at hraw
        split at hraw
        · simp at hraw
        · obtain rfl := (Option.some.inj hraw)
          simpa using hcp

/-- Witness for C7 at a single collection holding one chunk for a path: the
returned contents equal the sorted concatenation of the union. -/
theorem getFileByPath_union_sorted_concat_witness :
    ({ filePath := "a/Foo.gs"
     , contents := "class Foo"
     , metadata := some
         { absolutePath := "/src/a/Foo.gs", relativePath := "a/Foo.gs",
           moduleName := none, packageName := none, className := some "Foo",
           methodName := none, chunkType := "class", language := "gosu",
           lineStart := 1, lineEnd := 20, contentHash := "h1" } } :
      FileResult).contents =
      String.intercalate "\n\n"
        ((sortByLineStart
          (([("code", Except.ok
            [{ id := "c1", document := "class Foo", metadata :=
               { absolutePath := "/src/a/Foo.gs", relativePath := "a/Foo.gs",
                 moduleName := none, packageName := none,
                 className := some "Foo", methodName := none,
                 chunkType := "class", language := "gosu", lineStart := 1,
                 lineEnd := 20, contentHash := "h1" } }])] :
            GetCollections).flatMap
              (fileContribution "a/Foo.gs"))).map SearchHit.text) :=
  ((getFileByPath_union_sorted_concat "a/Foo.gs"
    [("code", Except.ok
      [{ id := "c1", document := "class Foo", metadata :=
         { absolutePath := "/src/a/Foo.gs", relativePath := "a/Foo.gs",
           moduleName := none, packageName := none, className := some "Foo",
           methodName := none, chunkType := "class", language := "gosu",
           lineStart := 1, lineEnd := 20, contentHash := "h1" } }])]).2.1
    _ (by rfl)).1

/-- C1: a semantic search returns at most K hits in total, sorted by
descending similarity score, and the returned list is a prefix of the
descending sort of the merged union of all collections' candidates — the
truncation to K applies to the union, not per collection.  K is the
effective top-K: the positive requested value, or the configured default
when none is requested. -/
theorem semanticSearch_topK_of_merged_union (cfgTopK : Nat)
    (topK : Option Nat) (filter : Option QueryFilter)
    (collections : List (String × Except String (List QueryRow)))
    (hreq : ∀ n, topK = some n → 0 < n) :
    (semanticSearch cfgTopK topK filter collections).length ≤
      semKVal cfgTopK topK ∧
    List.Sorted (fun a b : SearchHit => scoreD b ≤ scoreD a)
      (semanticSearch cfgTopK topK filter collections) ∧
    (∃ rest, sortByScoreDesc (semCandidates filter collections) =
      semanticSearch cfgTopK topK filter collections ++ rest) ∧
    (∀ n, topK = some n → semKVal cfgTopK topK = n) := by
  have hsorted : List.Sorted (fun a b : SearchHit => scoreD b ≤ scoreD a)
      (sortByScoreDesc (semCandidates filter collections)) := by
    haveI : IsTotal SearchHit (fun a b => scoreD b ≤ scoreD a) :=
      ⟨fun a b => le_total (scoreD b) (scoreD a)⟩
    haveI : IsTrans SearchHit (fun a b => scoreD b ≤ scoreD a) :=
      ⟨fun _ _ _ hab hbc => le_trans hbc hab⟩
    exact List.sorted_insertionSort _ _
  refine ⟨?_, ?_, ?_, ?_⟩
  · simp only [semanticSearch]
    exact List.length_take_le _ _
  · exact List.Pairwise.sublist (List.take_sublist _ _) hsorted
  · exact ⟨(sortByScoreDesc (semCandidates filter collections)).drop
      (semKVal cfgTopK topK), (List.take_append_drop _ _).symm⟩
  · intro n hn
    simp [semKVal, hn, (hreq n hn).ne']

/-- Witness for C1 at a concrete positive requested K. -/
theorem semanticSearch_topK_of_merged_union_witness :
    (semanticSearch 6 (some 1) none []).length ≤ semKVal 6 (some 1) :=
  (semanticSearch_topK_of_merged_union 6 (some 1) none []
    (fun _ h => (Option.some.inj h) ▸ Nat.one_pos)).1

theorem fst_of_mem_insertHit (h : SearchHit) :
    ∀ (acc : List (String × List SearchHit)) (p : String × List SearchHit),
      p ∈ insertHit h acc → p.1 = hitKey h ∨ p.1 ∈ acc.map Prod.fst := by
  intro acc
  induction acc with
  | nil =>
      intro p hp
      simp only [insertHit, List.mem_singleton] at hp
      left
      rw [hp]
  | cons q rest ih =>
      intro p hp
      obtain ⟨k, g⟩ := q
      simp only [insertHit] at hp
      by_cases hk : k = hitKey h
      · rw [if_pos hk] at hp
        rcases List.mem_cons.mp hp with h1 | h2
        · left
          rw [h1, ← hk]
        · right
          exact List.mem_cons_of_mem _ (List.mem_map_of_mem Prod.fst h2)
      · rw [if_neg hk] at hp
        rcases List.mem_cons.mp hp with h1 | h2
        · right
          rw [h1]
          exact List.mem_cons_self _ _
        · rcases ih p h2 with h3 | h4
          · exact Or.inl h3
          · exact Or.inr (List.mem_cons_of_mem _ h4)

theorem pairwise_insertHit (h : SearchHit)
    (acc : List (String × List SearchHit))
    (hpw : List.Pairwise (fun p q : String × List SearchHit => p.1 ≠ q.1) acc) :
    List.Pairwise (fun p q : String × List SearchHit => p.1 ≠ q.1)
      (insertHit h acc) := by
  induction acc with
  | nil => simp [insertHit]
  | cons q rest ih =>
      obtain ⟨k, g⟩ := q
      rw [List.pairwise_cons] at hpw
      obtain ⟨hq, hrest⟩ := hpw
      simp only [insertHit]
      by_cases hk : k = hitKey h
      · rw [if_pos hk]
        exact List.pairwise_cons.mpr ⟨hq, hrest⟩
      · rw [if_neg hk]
        refine List.pairwise_cons.mpr ⟨?_, ih hrest⟩
        intro p hp
        rcases fst_of_mem_insertHit h rest p hp with h1 | h2
        · rw [h1]
          exact hk
        · obtain ⟨q2, hq2, heq⟩ := List.mem_map.mp h2
          exact heq ▸ hq q2 hq2

theorem membersOK_insertHit (h : SearchHit)
    (acc : List (String × List SearchHit))
    (hOK : ∀ p ∈ acc, p.2 ≠ [] ∧ ∀ x ∈ p.2, hitKey x = p.1) :
    ∀ p ∈ insertHit h acc, p.2 ≠ [] ∧ ∀ x ∈ p.2, hitKey x = p.1 := by
  induction acc with
  | nil =>
      intro p hp
      simp only [insertHit, List.mem_singleton] at hp
      subst hp
      refine ⟨by simp, ?_⟩
      intro x hx
      rw [List.mem_singleton.mp hx]
  | cons q rest ih =>
      intro p hp
      obtain ⟨k, g⟩ := q
      simp only [insertHit] at hp
      by_cases hk : k = hitKey h
      · rw [if_pos hk] at hp
        rcases List.mem_cons.mp hp with h1 | h2
        · subst h1
          refine ⟨by simp, ?_⟩
          intro x hx
          rcases List.mem_append.mp hx with hx1 | hx2
          · exact (hOK (k, g) (List.mem_cons_self _ _)).2 x hx1
          · rw [List.mem_singleton.mp hx2, ← hk]
        · exact hOK p (List.mem_cons_of_mem _ h2)
      · rw [if_neg hk] at hp
        rcases List.mem_cons.mp hp with h1 | h2
        · subst h1
          exact hOK (k, g) (List.mem_cons_self _ _)
        · exact ih (fun r hr => hOK r (List.mem_cons_of_mem _ hr)) p h2

theorem groupByKey_inv (hits : List SearchHit) :
    List.Pairwise (fun p q : String × List SearchHit => p.1 ≠ q.1)
      (groupByKey hits) ∧
    ∀ p ∈ groupByKey hits, p.2 ≠ [] ∧ ∀ x ∈ p.2, hitKey x = p.1 := by
  suffices H : ∀ (l : List SearchHit) (acc : List (String × List SearchHit)),
      List.Pairwise (fun p q : String × List SearchHit => p.1 ≠ q.1) acc →
      (∀ p ∈ acc, p.2 ≠ [] ∧ ∀ x ∈ p.2, hitKey x = p.1) →
      List.Pairwise (fun p q : String × List SearchHit => p.1 ≠ q.1)
        (l.foldl (fun a h => insertHit h a) acc) ∧
      ∀ p ∈ l.foldl (fun a h => insertHit h a) acc,
        p.2 ≠ [] ∧ ∀ x ∈ p.2, hitKey x = p.1 by
    exact H hits [] (by simp) (by simp)
  intro l
  induction l with
  | nil => intro acc h1 h2; exact ⟨h1, h2⟩
  | cons h t ih =>
      intro acc h1 h2
      simp only [List.foldl_cons]
      exact ih _ (pairwise_insertHit h acc h1) (membersOK_insertHit h acc h2)

theorem mem_sortByLineStart (x : SearchHit) (l : List SearchHit) :
    x ∈ sortByLineStart l ↔ x ∈ l :=
  (List.perm_insertionSort _ l).mem_iff

theorem hitKey_mergeChunks (chunks : List SearchHit) (k : String)
    (hne : chunks ≠ []) (hall : ∀ x ∈ chunks, hitKey x = k) :
    hitKey (mergeChunks chunks) = k := by
  unfold mergeChunks
  cases hs : sortByLineStart chunks with
  | nil =>
      exfalso
      apply hne
      have hlen := congrArg List.length hs
      rw [sortByLineStart, List.length_insertionSort] at hlen
      exact List.eq_nil_of_length_eq_zero hlen
  | cons first rest =>
      have hmem : first ∈ chunks :=
        (mem_sortByLineStart first chunks).mp (hs ▸ List.mem_cons_self _ _)
      have hk := hall first hmem
      simp only [hitKey] at hk ⊢
      exact hk

theorem reconstructGroup_some (g : List SearchHit) (k : String)
    (hne : g ≠ []) (hall : ∀ x ∈ g, hitKey x = k) :
    ∃ r, reconstructGroup g = some r ∧ hitKey r = k := by
  cases g with
  | nil => exact absurd rfl hne
  | cons c rest =>
      cases rest with
      | nil => exact ⟨c, rfl, hall c (List.mem_cons_self _ _)⟩
      | cons c2 rest2 =>
          exact ⟨mergeChunks (c :: c2 :: rest2), rfl,
            hitKey_mergeChunks _ k (by simp) hall⟩

theorem keys_of_filterMap_reconstruct :
    ∀ gs : List (String × List SearchHit),
      (∀ p ∈ gs, p.2 ≠ [] ∧ ∀ x ∈ p.2, hitKey x = p.1) →
      (gs.filterMap (fun p => reconstructGroup p.2)).map hitKey =
        gs.map Prod.fst := by
  intro gs
  induction gs with
  | nil => intro _; rfl
  | cons p rest ih =>
      intro hOK
      have h1 := hOK p (List.mem_cons_self _ _)
      obtain ⟨r, hr, hk⟩ := reconstructGroup_some p.2 p.1 h1.1 h1.2
      simp only [List.filterMap_cons, hr, List.map_cons]
      rw [hk, ih (fun q hq => hOK q (List.mem_cons_of_mem _ hq))]

theorem reconstruct_keys_pairwise (hits : List SearchHit) :
    List.Pairwise (fun a b : SearchHit => hitKey a ≠ hitKey b)
      (reconstructSplitNodes hits) := by
  have hinv := groupByKey_inv hits
  have hkeys := keys_of_filterMap_reconstruct (groupByKey hits) hinv.2
  have hpw : List.Pairwise (fun a b : String => a ≠ b)
      ((groupByKey hits).map Prod.fst) := by
    rw [List.pairwise_map]
    exact hinv.1
  rw [← hkeys, List.pairwise_map] at hpw
  exact hpw

theorem insertHit_of_not_mem (h : SearchHit) :
    ∀ acc : List (String × List SearchHit), hitKey h ∉ acc.map Prod.fst →
      insertHit h acc = acc ++ [(hitKey h, [h])] := by
  intro acc
  induction acc with
  | nil => intro _; rfl
  | cons q rest ih =>
      intro hni
      obtain ⟨k, g⟩ := q
      simp only [List.map_cons, List.mem_cons] at hni
      push_neg at hni
      simp only [insertHit]
      rw [if_neg (fun hh => hni.1 hh.symm), ih hni.2]
      rfl

theorem foldl_insert_of_pairwise :
    ∀ (l : List SearchHit) (acc : List (String × List SearchHit)),
      List.Pairwise (fun a b : SearchHit => hitKey a ≠ hitKey b) l →
      (∀ x ∈ l, hitKey x ∉ acc.map Prod.fst) →
      l.foldl (fun a h => insertHit h a) acc =
        acc ++ l.map (fun h => (hitKey h, [h])) := by
  intro l
  induction l with
  | nil => intro acc _ _; simp
  | cons h t ih =>
      intro acc hpw hni
      have hstep := insertHit_of_not_mem h acc (hni h (List.mem_cons_self _ _))
      have hrec : ∀ x ∈ t, hitKey x ∉ (acc ++ [(hitKey h, [h])]).map Prod.fst := by
        intro x hx
        rw [List.map_append, List.mem_append]
        rintro (hm1 | hm2)
        · exact hni x (List.mem_cons_of_mem _ hx) hm1
        · simp only [List.map_cons, List.map_nil, List.mem_singleton] at hm2
          exact (List.pairwise_cons.mp hpw).1 x hx hm2.symm
      simp only [List.foldl_cons]
      rw [hstep, ih _ (List.pairwise_cons.mp hpw).2 hrec]
      simp

theorem groupByKey_of_pairwise (l : List SearchHit)
    (hpw : List.Pairwise (fun a b : SearchHit => hitKey a ≠ hitKey b) l) :
    groupByKey l = l.map (fun h => (hitKey h, [h])) := by
  unfold groupByKey
  rw [foldl_insert_of_pairwise l [] hpw (by simp)]
  simp

/-- C8: split-node reconstruction is idempotent — reapplying it to its own
output (an already-merged hit set) is a no-op, because the output carries
pairwise-distinct grouping keys, so every group of the second pass is a
singleton. -/
theorem reconstructSplitNodes_idempotent (hits : List SearchHit) :
    reconstructSplitNodes (reconstructSplitNodes hits) =
      reconstructSplitNodes hits := by
  have hpw := reconstruct_keys_pairwise hits
  show (groupByKey (reconstructSplitNodes hits)).filterMap
      (fun p => reconstructGroup p.2) = reconstructSplitNodes hits
  rw [groupByKey_of_pairwise _ hpw, List.filterMap_map]
  exact List.filterMap_some _

theorem wellPaired_rest (t : Turn) (rest : List Turn)
    (hwp : wellPaired (t :: rest) = true) : wellPaired rest = true := by
  simp only [wellPaired, Bool.and_eq_true] at hwp
  exact hwp.2

theorem wellPaired_cons_user (t : Turn) (rest : List Turn)
    (hwp : wellPaired (t :: rest) = true) (hrole : t.role = TurnRole.user) :
    ∃ nxt, rest.head? = some nxt ∧ nxt.role = TurnRole.assistant := by
  simp only [wellPaired, Bool.and_eq_true] at hwp
  have h1 := hwp.1
  rw [if_pos hrole] at h1
  cases hh : rest.head? with
  | none => rw [hh] at h1; exact absurd h1 (by simp)
  | some nxt => rw [hh] at h1; exact ⟨nxt, rfl, of_decide_eq_true h1⟩

theorem fsqLoop_isSome_of_isSome (threshold : ℚ) (sim : List ℚ → ℚ) :
    ∀ (l : List Turn) (bestSim : ℚ) (best : Option CachedResponse),
      best.isSome → (fsqLoop threshold sim l bestSim best).isSome := by
  intro l
  induction l with
  | nil => intro bestSim best h; simpa [fsqLoop] using h
  | cons t rest ih =>
      intro bestSim best h
      simp only [fsqLoop]
      by_cases hrole : t.role = TurnRole.user
      · rw [if_pos hrole]
        cases hemb : t.embedding with
        | none => exact ih _ _ h
        | some e =>
            dsimp only
            by_cases hcond : bestSim < sim e ∧ threshold ≤ sim e
            · rw [if_pos hcond]
              apply ih
              cases hh : rest.head? with
              | none => exact h
              | some nxt =>
                  dsimp only
                  by_cases hnr : nxt.role = TurnRole.assistant
                  · rw [if_pos hnr]; rfl
                  · rw [if_neg hnr]; exact h
            · rw [if_neg hcond]; exact ih _ _ h
      · rw [if_neg hrole]; exact ih _ _ h

theorem fsqLoop_isSome_trigger (threshold : ℚ) (sim : List ℚ → ℚ)
    (hth : 0 < threshold) :
    ∀ (l : List Turn) (bestSim : ℚ) (best : Option CachedResponse),
      wellPaired l = true →
      (bestSim = 0 ∨ best.isSome) →
      (∃ t ∈ l, t.role = TurnRole.user ∧
        ∃ e, t.embedding = some e ∧ threshold ≤ sim e) →
      (fsqLoop threshold sim l bestSim best).isSome := by
  intro l
  induction l with
  | nil => intro bestSim best _ _ hex; simp at hex
  | cons t rest ih =>
      intro bestSim best hwp hdisj hex
      have hwp2 := wellPaired_rest t rest hwp
      simp only [fsqLoop]
      by_cases hrole : t.role = TurnRole.user
      · rw [if_pos hrole]
        cases hemb : t.embedding with
        | none =>
            apply ih _ _ hwp2 hdisj
            obtain ⟨t0, ht0mem, ht0r, e0, he0, hs0⟩ := hex
            rcases List.mem_cons.mp ht0mem with rfl | hmem
            · rw [hemb] at he0; exact absurd he0 (by simp)
            · exact ⟨t0, hmem, ht0r, e0, he0, hs0⟩
        | some e =>
            dsimp only
            by_cases hcond : bestSim < sim e ∧ threshold ≤ sim e
            · rw [if_pos hcond]
              obtain ⟨nxt, hh, hnr⟩ := wellPaired_cons_user t rest hwp hrole
              rw [hh]
              dsimp only
              rw [if_pos hnr]
              apply fsqLoop_isSome_of_isSome
              rfl
            · rw [if_neg hcond]
              obtain ⟨t0, ht0mem, ht0r, e0, he0, hs0⟩ := hex
              rcases List.mem_cons.mp ht0mem with rfl | hmem
              · -- the qualifying turn is the head but the condition failed, so
                -- the running best similarity is already positive and a best
                -- match has been recorded
                rw [hemb] at he0
                obtain rfl := Option.some.inj he0
                have hnlt : ¬ bestSim < sim e := fun hlt => hcond ⟨hlt, hs0⟩
                have hpos : 0 < bestSim :=
                  lt_of_lt_of_le hth (le_trans hs0 (le_of_not_lt hnlt))
                have hbest : best.isSome := by
                  rcases hdisj with h0 | hs
                  · rw [h0] at hpos; exact absurd hpos (lt_irrefl 0)
                  · exact hs
                exact fsqLoop_isSome_of_isSome threshold sim rest bestSim best hbest
              · exact ih _ _ hwp2 hdisj ⟨t0, hmem, ht0r, e0, he0, hs0⟩
      · rw [if_neg hrole]
        apply ih _ _ hwp2 hdisj
        obtain ⟨t0, ht0mem, ht0r, rest0⟩ := hex
        rcases List.mem_cons.mp ht0mem with rfl | hmem
        · exact absurd ht0r hrole
        · exact ⟨t0, hmem, ht0r, rest0⟩

theorem fsqLoop_sound (threshold : ℚ) (sim : List ℚ → ℚ)
    (history : List Turn) :
    ∀ (l pre : List Turn) (bestSim : ℚ) (best : Option CachedResponse),
      history = pre ++ l →
      (∀ c, best = some c → ∃ l1 t a l2, history = l1 ++ t :: a :: l2 ∧
        t.role = TurnRole.user ∧
        (∃ e, t.embedding = some e ∧ threshold ≤ sim e) ∧
        a.role = TurnRole.assistant ∧
        c.query = t.content ∧ c.response = a.content) →
      ∀ c, fsqLoop threshold sim l bestSim best = some c →
        ∃ l1 t a l2, history = l1 ++ t :: a :: l2 ∧
          t.role = TurnRole.user ∧
          (∃ e, t.embedding = some e ∧ threshold ≤ sim e) ∧
          a.role = TurnRole.assistant ∧
          c.query = t.content ∧ c.response = a.content := by
  intro l
  induction l with
  | nil =>
      intro pre bestSim best _ hsound c hc
      simp only [fsqLoop] at hc
      exact hsound c hc
  | cons t rest ih =>
      intro pre bestSim best hh hsound c hc
      have happ : history = (pre ++ [t]) ++ rest := by
        rw [hh]
        simp
      simp only [fsqLoop] at hc
      by_cases hrole : t.role = TurnRole.user
      · rw [if_pos hrole] at hc
        cases hemb : t.embedding with
        | none =>
            rw [hemb] at hc
            dsimp only at hc
            exact ih (pre ++ [t]) _ _ happ hsound c hc
        | some e =>
            rw [hemb] at hc
            dsimp only at hc
            by_cases hcond : bestSim < sim e ∧ threshold ≤ sim e
            · rw [if_pos hcond] at hc
              cases hhd : rest.head? with
              | none =>
                  rw [hhd] at hc
                  dsimp only at hc
                  exact ih (pre ++ [t]) _ _ happ hsound c hc
              | some nxt =>
                  rw [hhd] at hc
                  dsimp only at hc
                  by_cases hnr : nxt.role = TurnRole.assistant
                  · rw [if_pos hnr] at hc
                    refine ih (pre ++ [t]) _ _ happ ?_ c hc
                    intro c2 hc2
                    obtain rfl := (Option.some.inj hc2).symm
                    obtain ⟨rest2, hrest⟩ := List.head?_eq_some_iff.mp hhd
                    refine ⟨pre, t, nxt, rest2, ?_, hrole,
                      ⟨e, hemb, hcond.2⟩, hnr, rfl, rfl⟩
                    rw [hh, hrest]
                  · rw [if_neg hnr] at hc
                    exact ih (pre ++ [t]) _ _ happ hsound c hc
            · rw [if_neg hcond] at hc
              exact ih (pre ++ [t]) _ _ happ hsound c hc
      · rw [if_neg hrole] at hc
        exact ih (pre ++ [t]) _ _ happ hsound c hc

theorem fsqLoop_none_of_below (threshold : ℚ) (sim : List ℚ → ℚ) :
    ∀ (l : List Turn) (bestSim : ℚ),
      (∀ t ∈ l, t.role = TurnRole.user →
        ∀ e, t.embedding = some e → sim e < threshold) →
      fsqLoop threshold sim l bestSim none = none := by
  intro l
  induction l with
  | nil => intro _ _; simp [fsqLoop]
  | cons t rest ih =>
      intro bestSim hbelow
      simp only [fsqLoop]
      by_cases hrole : t.role = TurnRole.user
      · rw [if_pos hrole]
        cases hemb : t.embedding with
        | none =>
            exact ih _ (fun t2 ht2 => hbelow t2 (List.mem_cons_of_mem _ ht2))
        | some e =>
            dsimp only
            have hlt := hbelow t (List.mem_cons_self _ _) hrole e hemb
            rw [if_neg (fun hcond => absurd hcond.2 (not_le.mpr hlt))]
            exact ih _ (fun t2 ht2 => hbelow t2 (List.mem_cons_of_mem _ ht2))
      · rw [if_neg hrole]
        exact ih _ (fun t2 ht2 => hbelow t2 (List.mem_cons_of_mem _ ht2))

/-- C2: on a well-paired stored history (every user turn immediately
followed by its assistant response, the invariant `saveTurn` maintains),
a new query whose embedding has similarity above the cache threshold to
some stored user-turn embedding short-circuits: the cached assistant
response that followed a stored above-threshold turn is returned and
`runAgent` (planning and step execution) is never invoked; when every
stored embedding scores below the threshold, the lookup misses and normal
planning proceeds. -/
theorem cache_short_circuit (threshold : ℚ) (sim : List ℚ → ℚ)
    (history : List Turn) (agentAnswer : String)
    (hth : 0 < threshold) (hwp : wellPaired history = true) :
    ((∃ t ∈ history, t.role = TurnRole.user ∧
        ∃ e, t.embedding = some e ∧ threshold < sim e) →
      ∃ c, findSimilarQuery threshold sim history = some c ∧
        mainFlow true threshold sim history agentAnswer =
          MainOutcome.cachedAnswer c.response ∧
        ∃ l1 t a l2, history = l1 ++ t :: a :: l2 ∧
          t.role = TurnRole.user ∧
          (∃ e, t.embedding = some e ∧ threshold ≤ sim e) ∧
          a.role = TurnRole.assistant ∧
          c.query = t.content ∧ c.response = a.content) ∧
    ((∀ t ∈ history, t.role = TurnRole.user →
        ∀ e, t.embedding = some e → sim e < threshold) →
      findSimilarQuery threshold sim history = none ∧
      mainFlow true threshold sim history agentAnswer =
        MainOutcome.plannedAnswer agentAnswer) := by
  constructor
  · rintro ⟨t0, hmem, hrole0, e0, hemb0, hgt⟩
    have hne : history ≠ [] := List.ne_nil_of_mem hmem
    have hcall : findSimilarQuery threshold sim history =
        fsqLoop threshold sim history 0 none := by
      unfold findSimilarQuery
      rw [if_neg (not_or.mpr
        ⟨fun h => hne (List.eq_nil_of_length_eq_zero h), not_le.mpr hth⟩)]
    have hsome := fsqLoop_isSome_trigger threshold sim hth history 0 none hwp
      (Or.inl rfl) ⟨t0, hmem, hrole0, e0, hemb0, le_of_lt hgt⟩
    rw [← hcall] at hsome
    obtain ⟨c, hc⟩ := Option.isSome_iff_exists.mp hsome
    refine ⟨c, hc, ?_, ?_⟩
    · simp [mainFlow, hc]
    · refine fsqLoop_sound threshold sim history history [] 0 none rfl ?_ c ?_
      · intro c2 hc2
        exact absurd hc2 (by simp)
      · rw [← hcall]
        exact hc
  · intro hbelow
    by_cases hlen : history.length = 0
    · constructor
      · unfold findSimilarQuery
        rw [if_pos (Or.inl hlen)]
      · simp [mainFlow, findSimilarQuery, hlen]
    · have hcall : findSimilarQuery threshold sim history =
          fsqLoop threshold sim history 0 none := by
        unfold findSimilarQuery
        rw [if_neg (not_or.mpr ⟨hlen, not_le.mpr hth⟩)]
      have hnone := fsqLoop_none_of_below threshold sim history 0 hbelow
      rw [← hcall] at hnone
      exact ⟨hnone, by simp [mainFlow, hnone]⟩

/-- Witness for C2 at a concrete history of one stored user/assistant pair
whose stored embedding scores above the threshold. -/
theorem cache_short_circuit_witness :
    ∃ c, findSimilarQuery 1 (fun _ => 2)
        [ { role := TurnRole.user, content := "q", timestamp := 0,
            embedding := some [1] }
        , { role := TurnRole.assistant, content := "a", timestamp := 0,
            embedding := none } ] = some c ∧
      mainFlow true 1 (fun _ => 2)
        [ { role := TurnRole.user, content := "q", timestamp := 0,
            embedding := some [1] }
        , { role := TurnRole.assistant, content := "a", timestamp := 0,
            embedding := none } ] "x" =
        MainOutcome.cachedAnswer c.response ∧
      ∃ l1 t a l2,
        [ ({ role := TurnRole.user, content := "q", timestamp := 0,
             embedding := some [1] } : Turn)
        , { role := TurnRole.assistant, content := "a", timestamp := 0,
            embedding := none } ] = l1 ++ t :: a :: l2 ∧
        t.role = TurnRole.user ∧
        (∃ e, t.embedding = some e ∧ (1 : ℚ) ≤ (fun _ => (2 : ℚ)) e) ∧
        a.role = TurnRole.assistant ∧
        c.query = t.content ∧ c.response = a.content :=
  (cache_short_circuit 1 (fun _ => 2)
    [ { role := TurnRole.user, content := "q", timestamp := 0,
        embedding := some [1] }
    , { role := TurnRole.assistant, content := "a", timestamp := 0,
        embedding := none } ] "x" zero_lt_one (by decide)).1
    ⟨{ role := TurnRole.user, content := "q", timestamp := 0,
       embedding := some [1] },
      List.mem_cons_self _ _, rfl, [1], rfl, one_lt_two⟩


theorem maybeSummarize_history (cfg : MemCfg)
    (oracle : List Turn → String) (st : ConvState) :
    (maybeSummarize cfg oracle st).history = st.history := by
  simp only [maybeSummarize]
  repeat' split
  all_goals rfl

theorem retention_drop_pair (st2 : ConvState) (stH : List Turn) (u a : Turn)
    (hh : st2.history = stH ++ [u, a]) :
    (if st2.history.length > 2 then
      ({ history := st2.history.drop (st2.history.length - 2)
       , summary := st2.summary } : ConvState)
    else st2).history = [u, a] := by
  split
  · show st2.history.drop (st2.history.length - 2) = [u, a]
    rw [hh]
    have hlen : (stH ++ [u, a]).length = stH.length + 2 := by simp
    rw [hlen, Nat.add_sub_cancel]
    exact List.drop_left _ _
  · rename_i hle
    rw [hh] at hle ⊢
    have hlen0 : stH.length = 0 := by
      simp only [List.length_append, List.length_cons, List.length_nil,
        gt_iff_lt, not_lt] at hle
      omega
    rw [List.eq_nil_of_length_eq_zero hlen0]
    rfl

theorem saveTurn_history_retention_two (cfg : MemCfg)
    (oracle : List Turn → String) (st : ConvState)
    (q a : String) (ts : Nat) (e : Option (List ℚ)) (lp : Bool)
    (hret : cfg.historyRetentionSize = 2) :
    (saveTurn cfg oracle st q a ts e lp).history =
      [ { role := TurnRole.user, content := q, timestamp := ts,
          embedding := e }
      , { role := TurnRole.assistant, content := a, timestamp := ts,
          embedding := none } ] := by
  simp only [saveTurn, hret]
  split
  · exact retention_drop_pair _ st.history _ _
      ((maybeSummarize_history _ _ _).trans rfl)
  · exact retention_drop_pair _ st.history _ _ rfl

theorem saveTurn_summary_of_small (cfg : MemCfg)
    (oracle : List Turn → String) (st : ConvState)
    (q a : String) (ts : Nat) (e : Option (List ℚ)) (lp : Bool)
    (hcs : 4 ≤ cfg.historyContextSize) (hlen : st.history.length ≤ 2) :
    (saveTurn cfg oracle st q a ts e lp).summary = st.summary := by
  have hms : maybeSummarize cfg oracle
      { history := st.history ++
          [ { role := TurnRole.user, content := q, timestamp := ts,
              embedding := e }
          , { role := TurnRole.assistant, content := a, timestamp := ts,
              embedding := none } ], summary := st.summary } =
      { history := st.history ++
          [ { role := TurnRole.user, content := q, timestamp := ts,
              embedding := e }
          , { role := TurnRole.assistant, content := a, timestamp := ts,
              embedding := none } ], summary := st.summary } := by
    simp only [maybeSummarize]
    have hcs0 : ¬ cfg.historyContextSize = 0 := by omega
    rw [if_neg hcs0]
    have htake : (st.history ++
        ([ { role := TurnRole.user, content := q, timestamp := ts,
             embedding := e }
         , { role := TurnRole.assistant, content := a, timestamp := ts,
             embedding := none } ] : List Turn)).length -
          cfg.historyContextSize = 0 := by
      simp only [List.length_append, List.length_cons, List.length_nil]
      omega
    rw [htake, List.take_zero]
    simp
  simp only [saveTurn, hms, ite_self]
  split
  · rfl
  · rfl

/-- C6 (amended): with retention size 2, after the third consecutive save
the history holds exactly the 2 most recent raw turns (the third query's
user/assistant pair); the rolling summary, however, is written only when
the context estimate exceeds the token budget with turns outside the
context window — with a context-window size of at least 4 turns (the
default is 6) it stays empty even when summarization is enabled. -/
theorem retention_two_after_three_saves (cfg : MemCfg)
    (oracle : List Turn → String)
    (q1 a1 q2 a2 q3 a3 : String) (t1 t2 t3 : Nat)
    (e1 e2 e3 : Option (List ℚ)) (lp1 lp2 lp3 : Bool)
    (hret : cfg.historyRetentionSize = 2) :
    (saveTurn cfg oracle (saveTurn cfg oracle (saveTurn cfg oracle
        { history := [], summary := "" } q1 a1 t1 e1 lp1)
        q2 a2 t2 e2 lp2) q3 a3 t3 e3 lp3).history =
      [ { role := TurnRole.user, content := q3, timestamp := t3,
          embedding := e3 }
      , { role := TurnRole.assistant, content := a3, timestamp := t3,
          embedding := none } ] ∧
    (4 ≤ cfg.historyContextSize →
      (saveTurn cfg oracle (saveTurn cfg oracle (saveTurn cfg oracle
          { history := [], summary := "" } q1 a1 t1 e1 lp1)
          q2 a2 t2 e2 lp2) q3 a3 t3 e3 lp3).summary = "") := by
  constructor
  · exact saveTurn_history_retention_two cfg oracle _ q3 a3 t3 e3 lp3 hret
  · intro hcs
    have h1hist := saveTurn_history_retention_two cfg oracle
      { history := [], summary := "" } q1 a1 t1 e1 lp1 hret
    have h2hist := saveTurn_history_retention_two cfg oracle
      (saveTurn cfg oracle { history := [], summary := "" } q1 a1 t1 e1 lp1)
      q2 a2 t2 e2 lp2 hret
    have hs1 : (saveTurn cfg oracle { history := [], summary := "" }
        q1 a1 t1 e1 lp1).summary = "" :=
      saveTurn_summary_of_small cfg oracle _ q1 a1 t1 e1 lp1 hcs (by simp)
    have hs2 := saveTurn_summary_of_small cfg oracle
      (saveTurn cfg oracle { history := [], summary := "" } q1 a1 t1 e1 lp1)
      q2 a2 t2 e2 lp2 hcs (by rw [h1hist]; simp)
    have hs3 := saveTurn_summary_of_small cfg oracle
      (saveTurn cfg oracle (saveTurn cfg oracle
        { history := [], summary := "" } q1 a1 t1 e1 lp1) q2 a2 t2 e2 lp2)
      q3 a3 t3 e3 lp3 hcs (by rw [h2hist]; simp)
    rw [hs3, hs2, hs1]

/-- Witness for C6 (amended) at the concrete default-like configuration:
summarization enabled, context size 6, retention 2, budget 2000. -/
theorem retention_two_after_three_saves_witness :
    (saveTurn { memorySummarizationEnabled := true
              , historyContextSize := 6
              , historyRetentionSize := 2
              , memoryMaxTokens := 2000 }
        (fun _ => "SUMMARY")
        (saveTurn { memorySummarizationEnabled := true
                  , historyContextSize := 6
                  , historyRetentionSize := 2
                  , memoryMaxTokens := 2000 } (fun _ => "SUMMARY")
          (saveTurn { memorySummarizationEnabled := true
                    , historyContextSize := 6
                    , historyRetentionSize := 2
                    , memoryMaxTokens := 2000 } (fun _ => "SUMMARY")
            { history := [], summary := "" } "q1" "a1" 1 none true)
          "q2" "a2" 2 none true)
        "q3" "a3" 3 none true).history =
      [ { role := TurnRole.user, content := "q3", timestamp := 3,
          embedding := none }
      , { role := TurnRole.assistant, content := "a3", timestamp := 3,
          embedding := none } ] :=
  (retention_two_after_three_saves
    { memorySummarizationEnabled := true
    , historyContextSize := 6
    , historyRetentionSize := 2
    , memoryMaxTokens := 2000 }
    (fun _ => "SUMMARY") "q1" "a1" "q2" "a2" "q3" "a3" 1 2 3
    none none none true true true rfl).1

/-- Counterexample for C6 as frozen: in a concrete run with retention 2,
summarization enabled and a summarizer that returns non-empty text, the
third save leaves exactly the 2 most recent raw turns but the rolling
summary field is still empty — the claimed non-emptiness fails because no
turn ever leaves the (default, 6-turn) context window under retention 2
and the token budget is never exceeded. -/
theorem summary_empty_after_three_saves_counterexample :
    (saveTurn { memorySummarizationEnabled := true
              , historyContextSize := 6
              , historyRetentionSize := 2
              , memoryMaxTokens := 2000 }
        (fun _ => "SUMMARY")
        (saveTurn { memorySummarizationEnabled := true
                  , historyContextSize := 6
                  , historyRetentionSize := 2
                  , memoryMaxTokens := 2000 } (fun _ => "SUMMARY")
          (saveTurn { memorySummarizationEnabled := true
                    , historyContextSize := 6
                    , historyRetentionSize := 2
                    , memoryMaxTokens := 2000 } (fun _ => "SUMMARY")
            { history := [], summary := "" } "q1" "a1" 1 none true)
          "q2" "a2" 2 none true)
        "q3" "a3" 3 none true).summary = "" := by
  decide
